import Mathlib

/-!
Verification development for the microtonalVibecode piano-roll editor.

The TypeScript sources are shallowly embedded: JavaScript numbers are
modelled over ℕ / ℚ where the code computes exactly on integers and
dyadic/decimal rationals, and over ℝ where the code uses `Math.log`.
Pure functions become Lean functions; the transport/gesture state updates
become explicit state-passing functions that also return the ordered list
of audio-engine calls (`startTone` / `stop`) they perform.
-/

namespace MVC

/-! ### Data model

The record types live in `src/model/project.ts`, which is not among the
provided sources; their fields are reconstructed from the spec (§3) and
from every field access in `src/components/PianoRoll.tsx` and
`src/utils/ratio.ts`. -/

/-- Modelled from the spec: the `Ratio` record of `src/model/project.ts`
(absent from the sources): an ordered pair `{num, den}` of integers,
conceptually positive. -/
structure Ratio where
  num : Nat
  den : Nat
deriving DecidableEq, Repr

/-- Modelled from the spec: the `Note` record of `src/model/project.ts`
(absent from the sources): `{ start, duration, ratio, velocity }`. -/
structure NoteJS where
  start : ℚ
  duration : ℚ
  ratio : Ratio
  velocity : ℚ
deriving DecidableEq, Repr

/-- Modelled from the spec: the `TuningRow` record of
`src/model/project.ts` (absent from the sources): an optional label and a
ratio. -/
structure TuningRow where
  name : Option String
  ratio : Ratio
deriving DecidableEq, Repr

/-- Modelled from the spec: the `Channel` record of `src/model/project.ts`
(absent from the sources): an id, the note sequence and the tuning rows. -/
structure Channel where
  id : String
  notes : List NoteJS
  tuning : List TuningRow
deriving DecidableEq, Repr

/-- Modelled from the spec: the `Project` record of `src/model/project.ts`
(absent from the sources); top-level fields per spec §3 and the accesses
`project.tempo`, `project.tuningRootHz`, `project.channels` in
`PianoRoll.tsx`. -/
structure Project where
  id : String
  name : String
  tempo : ℚ
  tuningRootHz : ℚ
  tuningBaseRatio : Ratio
  channels : List Channel
deriving DecidableEq, Repr

/-! ### Ratio math (`src/utils/ratio.ts`)

JavaScript `%` on nonnegative integers is `Nat.mod`; integer division is
exact here because the divisor is always a common divisor of the operands. -/

/-- The inner `gcd` closure of `simplifyRatio` (ratio.ts lines 4–5):
`gcd(a, b) = b === 0 ? a : gcd(b, a % b)`. -/
def gcdJS (a b : Nat) : Nat :=
  if b = 0 then a else gcdJS b (a % b)
termination_by b
decreasing_by exact Nat.mod_lt _ (Nat.pos_of_ne_zero (by assumption))

/-- `simplifyRatio` (ratio.ts lines 3–9): divide both components by the gcd. -/
def simplifyRatio (r : Ratio) : Ratio :=
  let g := gcdJS r.num r.den
  { num := r.num / g, den := r.den / g }

/-- `ratioToFloat` (ratio.ts lines 11–13): `num / den`, exact as a rational. -/
def ratioToFloat (r : Ratio) : ℚ :=
  (r.num : ℚ) / (r.den : ℚ)

/-- `multiplyRatios` (ratio.ts lines 15–17). -/
def multiplyRatios (a b : Ratio) : Ratio :=
  simplifyRatio { num := a.num * b.num, den := a.den * b.den }

/-- `divideRatios` (ratio.ts lines 19–21). -/
def divideRatios (a b : Ratio) : Ratio :=
  simplifyRatio { num := a.num * b.den, den := a.den * b.num }

/-- Modelled from the spec: spec §4.1 and §7 declare an error taxonomy in
which ratio simplification "fails with DivideByZero if denominator is 0".
No such check exists in `src/utils/ratio.ts`; this definition follows the
spec's words and is compared against the code's `simplifyRatio`. -/
inductive RatioError where
  | divideByZero
deriving DecidableEq, Repr

/-- Modelled from the spec: the spec's failing `simplify` (§4.1: "reduce by
GCD; fails with DivideByZero if denominator is 0"). -/
def simplifySpec (r : Ratio) : Except RatioError Ratio :=
  if r.den = 0 then .error .divideByZero else .ok (simplifyRatio r)

/-! ### Generic JavaScript helpers -/

/-- JavaScript `Math.round`: round half toward positive infinity. -/
def jsRound (q : ℚ) : ℤ := ⌊q + 1 / 2⌋

/-- The inline velocity clamp `Math.max(0, Math.min(1, v))` used at every
`startTone` call site in `PianoRoll.tsx`. -/
def clamp01 (v : ℚ) : ℚ := max 0 (min 1 v)

/-- JavaScript `Array.prototype.map` whose callback receives the element
index (`ch.notes.map((n, i) => ...)`), with the running index made
explicit. -/
def jsMapIdx (f : Nat → α → β) : Nat → List α → List β
  | _, [] => []
  | k, a :: as => f k a :: jsMapIdx f (k + 1) as

/-! ### Pitch axis mapper (`PianoRoll.tsx` lines 29–59)

`getY` computes with `Math.log` on binary floats; it is embedded exactly
over the reals as `getYreal`.  The scanning and selection functions below
close over `getY` in the source; they take the closed-over mapping as an
explicit parameter `getYq` (the unit-row y of a ratio), which `getYreal`
instantiates in the concrete counterexamples. -/

noncomputable def minLog : ℝ := Real.log 30

noncomputable def maxLog : ℝ := Real.log 3000

/-- `getY` (`PianoRoll.tsx` lines 35–45): map a ratio to a vertical unit
position on the fixed log-frequency scale `[MIN_FREQ_HZ, MAX_FREQ_HZ]`,
clamped to `[0,1]` and scaled by `rowCount - 1` (at least 1).  The JS
guard `range || 1` is modelled by the `if range = 0` test. -/
noncomputable def getYreal (tuningRootHz : ℝ) (numRows : Nat) (ratio : Ratio) : ℝ :=
  let freq := tuningRootHz * ((ratio.num : ℝ) / (ratio.den : ℝ))
  let val := Real.log freq
  let range0 := maxLog - minLog
  let range := if range0 = 0 then 1 else range0
  let scaled0 := (maxLog - val) / range
  let scaled := if scaled0 < 0 then 0 else if scaled0 > 1 then 1 else scaled0
  let span : ℝ := (max (numRows - 1) 1 : Nat)
  scaled * span

/-- The accumulator step of the `tuningRows.forEach` scan inside
`findNearestRowByYPx` (`PianoRoll.tsx` lines 52–56): state is
`(nearestIdx, best)` with `none` standing for the initial
`best = Infinity`; the running element index is threaded alongside. -/
def scanRows (yPx : ℚ) : List ℚ → Nat → Nat × Option ℚ → Nat × Option ℚ
  | [], _, st => st
  | y :: rest, idx, st =>
    let dy := |y - yPx|
    let st' := match st.2 with
      | none => (idx, some dy)
      | some best => if dy < best then (idx, some dy) else st
    scanRows yPx rest (idx + 1) st'

/-- `findNearestRowByYPx` (`PianoRoll.tsx` lines 48–59): linear scan of all
tuning rows for the minimum `|getY(row)*rowPx - yPx|`; returns the snapped
y and the matched ratio, or `(0, {1,1})` when there are no rows.  The
`noteHPx` parameter is taken (and ignored) exactly as in the source. -/
def findNearestRowByYPx (getYq : Ratio → ℚ) (rows : List TuningRow)
    (rowPx _noteHPx yPx : ℚ) : ℚ × Ratio :=
  if rows.isEmpty then (0, ⟨1, 1⟩)
  else
    let ys := rows.map fun t => getYq t.ratio * rowPx
    let nearestIdx := (scanRows yPx ys 0 (0, none)).1
    (((ys[nearestIdx]?).getD 0),
      ((rows[nearestIdx]?).map TuningRow.ratio).getD ⟨1, 1⟩)

/-! ### Selection (`PianoRoll.tsx` lines 62–69) -/

/-- `toggleSelect` (`PianoRoll.tsx` lines 63–69): start from the previous
set when additive, else from the empty set, then flip membership of `i`. -/
def toggleSelect (i : Nat) (additive : Bool) (prev : Finset Nat) : Finset Nat :=
  let next := if additive then prev else ∅
  if i ∈ next then next.erase i else insert i next

/-! ### Marquee selection (`PianoRoll.tsx` lines 132–185) -/

/-- The `onUp` selection test of `beginMarquee` (`PianoRoll.tsx` lines
153–176): normalize the marquee rectangle of the final gesture state and
collect every note index whose rectangle is not disjoint from it under
the strict `<` / `>` comparisons of line 173.  The source accumulates
indices into a `Set` in `forEach` order; the result is the ascending index
list. -/
def marqueeHits (getYq : Ratio → ℚ) (notes : List NoteJS)
    (beatPx rowPx noteHPx : ℚ) (mx my mw mh : ℚ) : List Nat :=
  let rx := min mx (mx + mw)
  let ry := min my (my + mh)
  let rw := |mw|
  let rh := |mh|
  let rRight := rx + rw
  let rBottom := ry + rh
  (List.range notes.length).filter fun i =>
    match notes[i]? with
    | none => false
    | some note =>
      let nx := note.start * beatPx
      let nyCenter := getYq note.ratio * rowPx
      let nw := note.duration * beatPx
      let nh := noteHPx
      let ny := nyCenter - nh / 2
      let nRight := nx + nw
      let nBottom := ny + nh
      !(decide (nRight < rx) || decide (nx > rRight) ||
        decide (nBottom < ry) || decide (ny > rBottom))

/-! ### Draw-note gesture (`PianoRoll.tsx` lines 378–435) -/

/-- The `drawing` gesture state (`PianoRoll.tsx` line 379). -/
structure DrawState where
  anchorBeat : ℚ
  endBeat : ℚ
  ratio : Ratio
deriving DecidableEq, Repr

/-- The note committed by the `onUp` handler of `beginDrawNote`
(`PianoRoll.tsx` lines 417–430): `start = min(anchor, end)`;
`duration = 1` when the raw distance is below the `0.01` movement
threshold, else `max(0.25, Math.round(durRaw * 4) / 4)`; velocity 1. -/
def commitDrawNote (d : DrawState) : NoteJS :=
  let start := min d.anchorBeat d.endBeat
  let durRaw := |d.endBeat - d.anchorBeat|
  let duration :=
    if durRaw < 1 / 100 then 1
    else max (1 / 4) ((jsRound (durRaw * 4) : ℚ) / 4)
  { start := start, duration := duration, ratio := d.ratio, velocity := 1 }

/-! ### Audio actions

Calls into the audio engine are recorded as an ordered action trace:
`startTone i rootHz ratio velocity` for `startTone(...)` stored under note
index `i`, `stopTone i` for `handle.stop()` of that index, and `stopAll`
for `stopAllPlaybackTones()`. -/

inductive Action where
  | stopAll : Action
  | startTone (idx : Nat) (rootHz : ℚ) (ratio : Ratio) (velocity : ℚ) : Action
  | stopTone (idx : Nat) : Action
deriving DecidableEq, Repr

/-- Whether `notes[i]` exists and satisfies the under-playhead test
`beat >= note.start && beat < note.start + note.duration` of
`PianoRoll.tsx` lines 205 and 313. -/
def underIdx (notes : List NoteJS) (beat : ℚ) (i : Nat) : Bool :=
  match notes[i]? with
  | some n => decide (n.start ≤ beat ∧ beat < n.start + n.duration)
  | none => false

/-- Predicate selecting a `startTone` action for note index `i`. -/
def isStartOf (i : Nat) : Action → Bool
  | .startTone j _ _ _ => j == i
  | _ => false

/-- Predicate selecting a `stopTone` action for note index `i`. -/
def isStopOf (i : Nat) : Action → Bool
  | .stopTone j => j == i
  | _ => false

/-! ### Voice gating (`PianoRoll.tsx` lines 201–225 and 310–332)

The tick loop and the playhead-scrub `updateForBeat` run the identical
two-phase update over the map of live voices: first start a voice for
every note under the playhead that has none (insertion order = note
order, matching JS `Map` key order), then stop and delete every voice
whose note is no longer under the playhead.  The voice map is modelled as
its key list in insertion order. -/

def gateNotes (rootHz : ℚ) (notes : List NoteJS) (beat : ℚ)
    (active : List Nat) : List Nat × List Action :=
  let started := (List.range notes.length).filter fun i =>
    underIdx notes beat i && !(decide (i ∈ active))
  let startActs := started.map fun i =>
    Action.startTone i rootHz (((notes[i]?).map NoteJS.ratio).getD ⟨1, 1⟩)
      (clamp01 (((notes[i]?).map NoteJS.velocity).getD 0))
  let active1 := active ++ started
  let stale := active1.filter fun i => !(underIdx notes beat i)
  let stopActs := stale.map Action.stopTone
  (active1.filter fun i => underIdx notes beat i, startActs ++ stopActs)

/-- One step of `updateForBeat` inside `beginPlayheadDrag`
(`PianoRoll.tsx` lines 201–225): set the playhead and gate the preview
voices at the given beat. -/
def updateForBeat (rootHz : ℚ) (notes : List NoteJS) (beat : ℚ)
    (active : List Nat) : ℚ × List Nat × List Action :=
  (beat, gateNotes rootHz notes beat active)

/-! ### Transport tick (`PianoRoll.tsx` lines 271–335) -/

/-- `totalBeats` (`PianoRoll.tsx` line 272):
`Math.max(16, Math.ceil(Math.max(0, ...ends)))`. -/
def totalBeats (notes : List NoteJS) : ℚ :=
  max 16 ((⌈notes.foldr (fun n acc => max (n.start + n.duration) acc) 0⌉ : ℤ) : ℚ)

/-- The mutable transport state captured by the tick loop: the two anchor
refs, the live playback voice map (key list), the playhead and the playing
flag. -/
structure TransportState where
  startBeat : ℚ
  startMs : ℚ
  active : List Nat
  playhead : ℚ
  isPlaying : Bool
deriving DecidableEq, Repr

/-- The beat computed at the top of `tick` (`PianoRoll.tsx` lines 281–283):
`startBeat + (now - startMs) / 1000 * (tempo / 60)`. -/
def computedBeat (tempo : ℚ) (s : TransportState) (now : ℚ) : ℚ :=
  s.startBeat + (now - s.startMs) / 1000 * (tempo / 60)

/-- `tick` (`PianoRoll.tsx` lines 279–335) as a state transformer that also
returns the ordered audio-action trace.  When a loop region is active
(`timeSelection` with `end > start`) and the computed beat reached its
end, the start anchor is shifted by whole loop lengths and all playback
voices are stopped before the gating phase; the source re-reads
`performance.now()` for the post-wrap beat, and both reads are modelled as
the same tick instant `now`.  Without an active loop the transport halts
at `totalBeats`. -/
def tick (tempo rootHz : ℚ) (notes : List NoteJS) (timeSel : Option (ℚ × ℚ))
    (now : ℚ) (s : TransportState) : TransportState × List Action :=
  let beat := computedBeat tempo s now
  let loopInfo : Option (ℚ × ℚ) :=
    match timeSel with
    | some (a, b) => if b > a then some (a, b) else none
    | none => none
  match loopInfo with
  | some (selStart, selEnd) =>
    if beat ≥ selEnd then
      let len := selEnd - selStart
      let loops : ℤ := ⌊(beat - selStart) / len⌋
      let startBeat' := s.startBeat - (loops : ℚ) * len
      let beat' := startBeat' + (now - s.startMs) / 1000 * (tempo / 60)
      let g := gateNotes rootHz notes beat' []
      ({ s with startBeat := startBeat', active := g.1, playhead := beat' },
        Action.stopAll :: g.2)
    else
      let g := gateNotes rootHz notes beat s.active
      ({ s with active := g.1, playhead := beat }, g.2)
  | none =>
    if beat ≥ totalBeats notes then
      ({ s with isPlaying := false, playhead := totalBeats notes, active := [] },
        [Action.stopAll])
    else
      let g := gateNotes rootHz notes beat s.active
      ({ s with active := g.1, playhead := beat }, g.2)

/-- Abbreviation for the post-wrap beat computed inside the loop branch of
`tick`: the shifted anchor plus the (re-read) elapsed time, both reads
modelled at the same instant. -/
def wrappedBeat (tempo : ℚ) (s : TransportState) (now a b : ℚ) : ℚ :=
  s.startBeat - ((⌊(computedBeat tempo s now - a) / (b - a)⌋ : ℤ) : ℚ) * (b - a) +
    (now - s.startMs) / 1000 * (tempo / 60)

/-! ### Per-note mouse handlers (`PianoRoll.tsx` lines 668–719) -/

/-- The left-button branch of the note `onMouseDown` handler
(`PianoRoll.tsx` lines 676–694): if no preview handle exists for note `i`,
start one at the note's ratio with the clamped velocity. -/
def noteMouseDownLeft (rootHz : ℚ) (i : Nat) (note : NoteJS)
    (handles : List Nat) : List Nat × List Action :=
  if i ∈ handles then (handles, [])
  else (handles ++ [i],
    [Action.startTone i rootHz note.ratio (clamp01 note.velocity)])

/-- The note `onDragStart` handler (`PianoRoll.tsx` lines 697–719),
restricted to its selection and preview-voice effects: toggle the
selection when the note was not selected, then ensure a preview voice with
the clamped velocity.  The drag-position bookkeeping has no audio effect
and is omitted. -/
def noteDragStart (rootHz : ℚ) (i : Nat) (note : NoteJS) (isSel : Bool)
    (shiftKey : Bool) (selected : Finset Nat) (handles : List Nat) :
    Finset Nat × List Nat × List Action :=
  let selected' := if !isSel then toggleSelect i shiftKey selected else selected
  if i ∈ handles then (selected', handles, [])
  else (selected', handles ++ [i],
    [Action.startTone i rootHz note.ratio (clamp01 note.velocity)])

/-! ### Edit applier (`PianoRoll.tsx` lines 471–480) -/

/-- A `Partial<Note>` patch: absent keys are `none`, exactly the keys that
the object spread `{ ...n, ...patch }` leaves unchanged. -/
structure NotePatch where
  start : Option ℚ := none
  duration : Option ℚ := none
  ratio : Option Ratio := none
  velocity : Option ℚ := none
deriving DecidableEq, Repr

/-- The object spread `{ ...n, ...patch }` of `PianoRoll.tsx` line 476. -/
def applyPatch (n : NoteJS) (p : NotePatch) : NoteJS :=
  { start := p.start.getD n.start
    duration := p.duration.getD n.duration
    ratio := p.ratio.getD n.ratio
    velocity := p.velocity.getD n.velocity }

/-- `updateNote` (`PianoRoll.tsx` lines 471–480): rebuild the project,
mapping every channel with the target id to a copy whose note at
`noteIndex` is patched. -/
def updateNote (project : Project) (channelId : String) (noteIndex : Nat)
    (patch : NotePatch) : Project :=
  { project with
    channels := project.channels.map fun ch =>
      if ch.id = channelId then
        { ch with
          notes := jsMapIdx
            (fun i n => if i = noteIndex then applyPatch n patch else n)
            0 ch.notes }
      else ch }

end MVC

namespace MVC

/-! ### Lemmas about the ratio math -/

theorem gcdJS_eq_gcd (a b : Nat) : gcdJS a b = Nat.gcd b a := by
  induction b using Nat.strong_induction_on generalizing a with
  | _ b ih =>
    rw [gcdJS]
    by_cases h : b = 0
    · subst h; rw [if_pos rfl, Nat.gcd_zero_left]
    · rw [if_neg h, ih (a % b) (Nat.mod_lt _ (Nat.pos_of_ne_zero h)),
        Nat.gcd_rec b a]

theorem simplifyRatio_num (r : Ratio) :
    (simplifyRatio r).num = r.num / Nat.gcd r.num r.den := by
  simp [simplifyRatio, gcdJS_eq_gcd, Nat.gcd_comm]

theorem simplifyRatio_den (r : Ratio) :
    (simplifyRatio r).den = r.den / Nat.gcd r.num r.den := by
  simp [simplifyRatio, gcdJS_eq_gcd, Nat.gcd_comm]

/-- Simplification yields a coprime pair whenever an operand is nonzero. -/
theorem simplifyRatio_coprime (r : Ratio) (h : 0 < r.num ∨ 0 < r.den) :
    Nat.gcd (simplifyRatio r).num (simplifyRatio r).den = 1 := by
  rw [simplifyRatio_num, simplifyRatio_den]
  have hg : 0 < Nat.gcd r.num r.den := by
    rcases h with h | h
    · exact Nat.gcd_pos_of_pos_left _ h
    · exact Nat.gcd_pos_of_pos_right _ h
  exact Nat.coprime_div_gcd_div_gcd hg

/-- Simplification preserves the rational value (cross-multiplication form). -/
theorem simplifyRatio_cross (r : Ratio) (h : 0 < r.num ∨ 0 < r.den) :
    (simplifyRatio r).num * r.den = (simplifyRatio r).den * r.num := by
  obtain ⟨m, hm⟩ := Nat.gcd_dvd_left r.num r.den
  obtain ⟨n, hn⟩ := Nat.gcd_dvd_right r.num r.den
  rw [simplifyRatio_num, simplifyRatio_den]
  set g := Nat.gcd r.num r.den with hgdef
  have hg : 0 < g := by
    rcases h with h | h
    · exact Nat.gcd_pos_of_pos_left _ h
    · exact Nat.gcd_pos_of_pos_right _ h
  rw [hm, hn, Nat.mul_div_cancel_left _ hg, Nat.mul_div_cancel_left _ hg]
  ring

/-- C1: for every ratio `a` with positive numerator and denominator,
`simplifyRatio (multiplyRatios a (divideRatios {1,1} a))` is the ratio
`{1,1}`; and in general `multiplyRatios` and `divideRatios` return ratios
in lowest terms whose value (in cross-multiplied form) is the exact
rational product, respectively quotient, of their arguments. -/
theorem ratio_roundtrip_lowest_terms :
    (∀ a : Ratio, 0 < a.num → 0 < a.den →
      simplifyRatio (multiplyRatios a (divideRatios ⟨1, 1⟩ a)) = ⟨1, 1⟩) ∧
    (∀ a b : Ratio, 0 < a.num → 0 < a.den → 0 < b.num → 0 < b.den →
      (Nat.gcd (multiplyRatios a b).num (multiplyRatios a b).den = 1 ∧
        (multiplyRatios a b).num * (a.den * b.den) =
          (multiplyRatios a b).den * (a.num * b.num)) ∧
      (Nat.gcd (divideRatios a b).num (divideRatios a b).den = 1 ∧
        (divideRatios a b).num * (a.den * b.num) =
          (divideRatios a b).den * (a.num * b.den))) := by
  have hsimp_self : ∀ k : Nat, 0 < k → simplifyRatio ⟨k, k⟩ = ⟨1, 1⟩ := by
    intro k hk
    have : gcdJS k k = k := by
      rw [gcdJS_eq_gcd, Nat.gcd_self]
    simp [simplifyRatio, this, Nat.div_self hk]
  constructor
  · intro a ha hd
    have hg : 0 < Nat.gcd a.den a.num := Nat.gcd_pos_of_pos_left _ hd
    have hdvd_num : Nat.gcd a.den a.num ∣ a.num := Nat.gcd_dvd_right _ _
    have hdvd_den : Nat.gcd a.den a.num ∣ a.den := Nat.gcd_dvd_left _ _
    have hdiv : divideRatios ⟨1, 1⟩ a =
        ⟨a.den / Nat.gcd a.den a.num, a.num / Nat.gcd a.den a.num⟩ := by
      show simplifyRatio ⟨1 * a.den, 1 * a.num⟩ = _
      rw [show (⟨1 * a.den, 1 * a.num⟩ : Ratio) = ⟨a.den, a.num⟩ by
        simp]
      rw [Ratio.mk.injEq]
      exact ⟨simplifyRatio_num ⟨a.den, a.num⟩, simplifyRatio_den ⟨a.den, a.num⟩⟩
    have hcomm : a.num * (a.den / Nat.gcd a.den a.num) =
        a.den * (a.num / Nat.gcd a.den a.num) := by
      rw [← Nat.mul_div_assoc _ hdvd_den, ← Nat.mul_div_assoc _ hdvd_num,
        Nat.mul_comm]
    have hpos : 0 < a.num * (a.den / Nat.gcd a.den a.num) := by
      apply Nat.mul_pos ha
      exact Nat.div_pos (Nat.le_of_dvd hd hdvd_den) hg
    have hmul : multiplyRatios a (divideRatios ⟨1, 1⟩ a) = ⟨1, 1⟩ := by
      rw [hdiv]
      show simplifyRatio ⟨a.num * (a.den / Nat.gcd a.den a.num),
        a.den * (a.num / Nat.gcd a.den a.num)⟩ = ⟨1, 1⟩
      rw [← hcomm]
      exact hsimp_self _ hpos
    rw [hmul]
    exact hsimp_self 1 Nat.one_pos
  · intro a b ha hb hc hd
    refine ⟨⟨?_, ?_⟩, ⟨?_, ?_⟩⟩
    · exact simplifyRatio_coprime ⟨a.num * b.num, a.den * b.den⟩
        (Or.inl (Nat.mul_pos ha hc))
    · exact simplifyRatio_cross ⟨a.num * b.num, a.den * b.den⟩
        (Or.inl (Nat.mul_pos ha hc))
    · exact simplifyRatio_coprime ⟨a.num * b.den, a.den * b.num⟩
        (Or.inl (Nat.mul_pos ha hd))
    · exact simplifyRatio_cross ⟨a.num * b.den, a.den * b.num⟩
        (Or.inl (Nat.mul_pos ha hd))

/-- C1 witness: the round trip and the lowest-terms/exactness facts hold at
the concrete ratios 4/6 and 10/9. -/
theorem ratio_roundtrip_lowest_terms_witness :
    simplifyRatio (multiplyRatios ⟨4, 6⟩ (divideRatios ⟨1, 1⟩ ⟨4, 6⟩)) = ⟨1, 1⟩ ∧
    Nat.gcd (multiplyRatios ⟨4, 6⟩ ⟨10, 9⟩).num
      (multiplyRatios ⟨4, 6⟩ ⟨10, 9⟩).den = 1 := by
  refine ⟨ratio_roundtrip_lowest_terms.1 ⟨4, 6⟩ (by decide) (by decide), ?_⟩
  exact ((ratio_roundtrip_lowest_terms.2 ⟨4, 6⟩ ⟨10, 9⟩ (by decide) (by decide)
    (by decide) (by decide)).1).1

/-- C7 counterexample: the claim says `simplify` of a zero-denominator
ratio fails with a DivideByZero error and does not return a ratio value,
and that dividing by a zero-numerator ratio likewise fails.  The code in
`src/utils/ratio.ts` has no such check: JavaScript division does not
throw, so `simplifyRatio {num:2, den:0}` returns the ratio value `{1, 0}`
and `divideRatios {1,1} {0,1}` returns `{1, 0}`, while the spec-modelled
`simplifySpec` demands an error there. -/
theorem zero_denominator_counterexample :
    simplifySpec ⟨2, 0⟩ = .error .divideByZero ∧
    simplifyRatio ⟨2, 0⟩ = ⟨1, 0⟩ ∧
    divideRatios ⟨1, 1⟩ ⟨0, 1⟩ = ⟨1, 0⟩ := by
  refine ⟨rfl, ?_, ?_⟩ <;> simp [simplifyRatio, divideRatios, gcdJS]

/-- C7 amended: the ratio utilities are total — no error is raised.
`simplifyRatio` of a ratio with positive numerator and zero denominator
returns the ratio value `{1, 0}`, and `divideRatios a b` with
`b.num = 0` (and nonzero combined numerator) returns `{1, 0}`. -/
theorem zero_denominator_total_behavior :
    (∀ n : Nat, 0 < n → simplifyRatio ⟨n, 0⟩ = ⟨1, 0⟩) ∧
    (∀ a b : Ratio, b.num = 0 → 0 < a.num → 0 < b.den →
      divideRatios a b = ⟨1, 0⟩) := by
  have key : ∀ n : Nat, 0 < n → simplifyRatio ⟨n, 0⟩ = ⟨1, 0⟩ := by
    intro n hn
    have hg : gcdJS n 0 = n := by rw [gcdJS]; simp
    simp [simplifyRatio, hg, Nat.div_self hn]
  refine ⟨key, ?_⟩
  intro a b hb ha hd
  have : divideRatios a b = simplifyRatio ⟨a.num * b.den, 0⟩ := by
    simp [divideRatios, hb]
  rw [this]
  exact key _ (Nat.mul_pos ha hd)

/-- C7 amended witness: concrete instances of the total behavior. -/
theorem zero_denominator_total_behavior_witness :
    simplifyRatio ⟨3, 0⟩ = ⟨1, 0⟩ ∧ divideRatios ⟨2, 5⟩ ⟨0, 7⟩ = ⟨1, 0⟩ :=
  ⟨zero_denominator_total_behavior.1 3 (by decide),
    zero_denominator_total_behavior.2 ⟨2, 5⟩ ⟨0, 7⟩ (by decide) (by decide)
      (by decide)⟩

/-- C6 counterexample: the claim says that when the selection is exactly
the singleton `{i}`, a non-additive toggle of `i` clears the selection.
The code builds the next set from the empty set in the non-additive
branch, so `i` is never found in it and is always (re)inserted:
`toggleSelect 0 false {0} = {0}`, not `∅`. -/
theorem toggle_reclick_counterexample :
    toggleSelect 0 false {0} = {0} ∧ toggleSelect 0 false {0} ≠ (∅ : Finset Nat) := by
  constructor <;> decide

/-- C6 amended: a non-additive toggle always replaces the selection with
the singleton `{i}` (also when `i` was already the sole member — there is
no clear-on-reclick); an additive toggle flips membership of `i` and
leaves all other members unchanged. -/
theorem toggle_select_semantics :
    ∀ (i : Nat) (S : Finset Nat),
      toggleSelect i false S = {i} ∧
      toggleSelect i true S = (if i ∈ S then S.erase i else insert i S) := by
  intro i S
  refine ⟨?_, ?_⟩ <;> simp [toggleSelect]

/-- C3: a committed draw gesture with anchor beat `A` and end beat `E`
yields a note starting at `min A E`, with duration 1 when `A` and `E` are
approximately equal (absolute distance below the `0.01` movement
threshold) and `max(0.25, round(|E − A| · 4) / 4)` otherwise; concretely,
anchor 2.0 released at 2.0 gives duration 1 and anchor 2.0 released at
4.3 gives duration 2.25. -/
theorem draw_commit_duration :
    ∀ d : DrawState,
      (commitDrawNote d).start = min d.anchorBeat d.endBeat ∧
      (|d.endBeat - d.anchorBeat| < 1 / 100 → (commitDrawNote d).duration = 1) ∧
      (¬ |d.endBeat - d.anchorBeat| < 1 / 100 →
        (commitDrawNote d).duration =
          max (1 / 4) ((jsRound (|d.endBeat - d.anchorBeat| * 4) : ℚ) / 4)) ∧
      (commitDrawNote ⟨2, 2, ⟨1, 1⟩⟩).duration = 1 ∧
      (commitDrawNote ⟨2, 43 / 10, ⟨1, 1⟩⟩).duration = 9 / 4 := by
  intro d
  have habs : |(43 : ℚ) / 10 - 2| = 23 / 10 := by
    rw [show (43 : ℚ) / 10 - 2 = 23 / 10 by norm_num]
    rw [abs_of_nonneg] ; norm_num
  refine ⟨rfl, ?_, ?_, ?_, ?_⟩
  · intro h; simp only [commitDrawNote, if_pos h]
  · intro h; simp only [commitDrawNote, if_neg h]
  · simp [commitDrawNote]
  · show (if |(43 : ℚ) / 10 - 2| < 1 / 100 then 1
      else max (1 / 4) ((jsRound (|(43 : ℚ) / 10 - 2| * 4) : ℚ) / 4)) = 9 / 4
    rw [habs, if_neg (by norm_num)]
    have : jsRound ((23 : ℚ) / 10 * 4) = 9 := by
      rw [jsRound, show (23 : ℚ) / 10 * 4 + 1 / 2 = 97 / 10 by norm_num]
      norm_num
    rw [this]
    norm_num

/-- C3 witness: the non-trivial duration branch evaluated at the concrete
gesture anchored at beat 2 and released at beat 4.3. -/
theorem draw_commit_duration_witness :
    ¬ |((43 : ℚ) / 10) - 2| < 1 / 100 ∧
    (commitDrawNote ⟨2, 43 / 10, ⟨1, 1⟩⟩).duration =
      max (1 / 4) ((jsRound (|((43 : ℚ) / 10) - 2| * 4) : ℚ) / 4) := by
  have h : ¬ |((43 : ℚ) / 10) - 2| < 1 / 100 := by
    rw [show (43 : ℚ) / 10 - 2 = 23 / 10 by norm_num,
      abs_of_nonneg (by norm_num : (0:ℚ) ≤ 23 / 10)]
    norm_num
  exact ⟨h, (draw_commit_duration ⟨2, 43 / 10, ⟨1, 1⟩⟩).2.2.1 h⟩

/-- C2 amended: on completion of a marquee gesture the selection is
exactly the set of note indices whose rectangle intersects the normalized
marquee rectangle as closed boxes — because the disjointness test uses
strict `<` / `>`, rectangles that merely touch on an edge count as
overlapping, and a zero-area marquee selects every note whose closed
rectangle contains the point. -/
theorem marquee_selection_closed_overlap :
    ∀ (getYq : Ratio → ℚ) (notes : List NoteJS) (beatPx rowPx noteHPx : ℚ)
      (mx my mw mh : ℚ) (i : Nat),
      i ∈ marqueeHits getYq notes beatPx rowPx noteHPx mx my mw mh ↔
        ∃ n, notes[i]? = some n ∧
          min mx (mx + mw) ≤ n.start * beatPx + n.duration * beatPx ∧
          n.start * beatPx ≤ min mx (mx + mw) + |mw| ∧
          min my (my + mh) ≤ getYq n.ratio * rowPx - noteHPx / 2 + noteHPx ∧
          getYq n.ratio * rowPx - noteHPx / 2 ≤ min my (my + mh) + |mh| := by
  intro getYq notes beatPx rowPx noteHPx mx my mw mh i
  simp only [marqueeHits, List.mem_filter, List.mem_range]
  constructor
  · rintro ⟨hlen, hpred⟩
    have hsome : notes[i]? = some notes[i] := List.getElem?_eq_getElem hlen
    rw [hsome] at hpred
    simp only [Bool.or_eq_true, Bool.not_eq_true', Bool.or_eq_false_iff,
      decide_eq_false_iff_not, not_lt, gt_iff_lt] at hpred
    exact ⟨notes[i], hsome, by linarith [hpred.1.1.1], by linarith [hpred.1.1.2],
      by linarith [hpred.1.2], by linarith [hpred.2]⟩
  · rintro ⟨n, hsome, h1, h2, h3, h4⟩
    have hlen : i < notes.length := by
      have h := hsome
      rw [List.getElem?_eq_some] at h
      exact h.1
    refine ⟨hlen, ?_⟩
    rw [hsome]
    simp only [Bool.or_eq_true, Bool.not_eq_true', Bool.or_eq_false_iff,
      decide_eq_false_iff_not, not_lt, gt_iff_lt]
    exact ⟨⟨⟨by linarith, by linarith⟩, by linarith⟩, by linarith⟩

/-- Frequencies at or above the top of the fixed window clamp to vertical
position 0: when `log(rootHz · ratio) ≥ maxLog`, `getYreal` returns 0. -/
theorem getYreal_clamp_top (rootHz : ℝ) (nR : Nat) (r : Ratio)
    (h : maxLog ≤ Real.log (rootHz * ((r.num : ℝ) / (r.den : ℝ)))) :
    getYreal rootHz nR r = 0 := by
  simp only [getYreal]
  have hrange : (0 : ℝ) < maxLog - minLog := by
    rw [maxLog, minLog]
    exact sub_pos.mpr (Real.log_lt_log (by norm_num) (by norm_num))
  have hnum : maxLog - Real.log (rootHz * ((r.num : ℝ) / (r.den : ℝ))) ≤ 0 :=
    sub_nonpos.mpr h
  rw [if_neg (ne_of_gt hrange)]
  set scaled0 := (maxLog - Real.log (rootHz * ((r.num : ℝ) / (r.den : ℝ)))) /
    (maxLog - minLog) with hs0
  have hsc : scaled0 ≤ 0 := div_nonpos_of_nonpos_of_nonneg hnum hrange.le
  by_cases hlt : scaled0 < 0
  · rw [if_pos hlt, zero_mul]
  · have hz : scaled0 = 0 := le_antisymm hsc (not_lt.mp hlt)
    rw [if_neg hlt, hz, if_neg (by norm_num), zero_mul]

/-- C2 counterexample: with root 3000 Hz the ratio 1/1 sits at vertical
position 0 (`getYreal` = 0 exactly), and a zero-area marquee at the point
(10, 0) — inside the closed rectangle of the single note starting at beat
0 with duration 1 — selects note 0.  The claim that a zero-area marquee
always yields an empty selection is therefore false; the strict `<` / `>`
disjointness test makes point and edge contact count as overlap. -/
theorem marquee_zero_area_counterexample :
    getYreal 3000 1 ⟨1, 1⟩ = 0 ∧
    marqueeHits (fun _ => 0)
      [{ start := 0, duration := 1, ratio := ⟨1, 1⟩, velocity := 1 }]
      48 32 10 10 0 0 0 = [0] := by
  constructor
  · apply getYreal_clamp_top
    rw [show (3000 : ℝ) * (((1 : Nat) : ℝ) / ((1 : Nat) : ℝ)) = 3000 by norm_num,
      maxLog]
  · simp only [marqueeHits, List.length_singleton,
      show List.range 1 = [0] from rfl, List.filter_cons, List.filter_nil,
      List.getElem?_cons_zero]
    norm_num

theorem scanRows_append (yPx : ℚ) (l₁ l₂ : List ℚ) (idx : Nat)
    (st : Nat × Option ℚ) :
    scanRows yPx (l₁ ++ l₂) idx st =
      scanRows yPx l₂ (idx + l₁.length) (scanRows yPx l₁ idx st) := by
  induction l₁ generalizing idx st with
  | nil => simp [scanRows]
  | cons y rest ih =>
    simp only [List.cons_append, scanRows, List.length_cons]
    rw [show rest.append l₂ = rest ++ l₂ from rfl, ih]
    congr 1
    omega

/-- Once the running minimum hits distance 0 the scan state never changes
again (the update uses strict `<`). -/
theorem scanRows_zero_absorb (yPx : ℚ) (l : List ℚ) (idx i : Nat) :
    scanRows yPx l idx (i, some 0) = (i, some 0) := by
  induction l generalizing idx with
  | nil => rfl
  | cons y rest ih =>
    simp only [scanRows, if_neg (not_lt.mpr (abs_nonneg (y - yPx)))]
    exact ih _

/-- While every scanned distance is positive the running minimum stays
positive (or not yet set). -/
theorem scanRows_pos (yPx : ℚ) (l : List ℚ) (idx : Nat) (st : Nat × Option ℚ)
    (hl : ∀ y ∈ l, 0 < |y - yPx|)
    (hst : st.2 = none ∨ ∃ q, st.2 = some q ∧ 0 < q) :
    (scanRows yPx l idx st).2 = none ∨
      ∃ q, (scanRows yPx l idx st).2 = some q ∧ 0 < q := by
  induction l generalizing idx st with
  | nil => exact hst
  | cons y rest ih =>
    obtain ⟨i0, b0⟩ := st
    simp only [scanRows]
    apply ih
    · intro z hz
      exact hl z (List.mem_cons_of_mem _ hz)
    · rcases hst with h | ⟨q, hq, hqpos⟩
      · simp only at h
        subst h
        exact Or.inr ⟨_, rfl, hl y (List.mem_cons_self y rest)⟩
      · simp only at hq
        subst hq
        by_cases hdy : |y - yPx| < q
        · simp only [if_pos hdy]
          exact Or.inr ⟨_, rfl, hl y (List.mem_cons_self y rest)⟩
        · simp only [if_neg hdy]
          exact Or.inr ⟨q, rfl, hqpos⟩

/-- The scan started at index 0 lands on the first element at distance 0
when all earlier elements are at positive distance. -/
theorem scanRows_first_zero (yPx : ℚ) (l₁ : List ℚ) (y0 : ℚ) (l₂ : List ℚ)
    (h₁ : ∀ y ∈ l₁, 0 < |y - yPx|) (h0 : |y0 - yPx| = 0) :
    scanRows yPx (l₁ ++ y0 :: l₂) 0 (0, none) = (l₁.length, some 0) := by
  rw [scanRows_append]
  rcases hsc : scanRows yPx l₁ 0 (0, none) with ⟨i₁, ob₁⟩
  have hpos := scanRows_pos yPx l₁ 0 (0, none) h₁ (Or.inl rfl)
  rw [hsc] at hpos
  simp only [scanRows, h0]
  rcases hpos with h | ⟨q, hq, hqpos⟩
  · simp only at h
    subst h
    simpa [Nat.zero_add] using scanRows_zero_absorb yPx l₂ (l₁.length + 1) _
  · simp only at hq
    subst hq
    simp only [if_pos hqpos]
    simpa [Nat.zero_add] using scanRows_zero_absorb yPx l₂ (l₁.length + 1) _

/-- C8 amended: `findNearestRowByYPx` applied to the exact pixel position
of tuning row `k` returns the FIRST row whose pixel position equals that
position (ties at the minimal distance are broken toward the earlier
row); in particular it returns row `k` itself — with its snapped y equal
to the query — whenever no earlier row maps to the same pixel position. -/
theorem nearest_row_exact_first :
    ∀ (getYq : Ratio → ℚ) (rows : List TuningRow) (rowPx noteHPx : ℚ)
      (k : Nat) (hk : k < rows.length),
      (∀ j, ∀ hj : j < rows.length, j < k →
        getYq (rows[j].ratio) * rowPx ≠ getYq (rows[k].ratio) * rowPx) →
      findNearestRowByYPx getYq rows rowPx noteHPx
        (getYq (rows[k].ratio) * rowPx) =
        (getYq (rows[k].ratio) * rowPx, rows[k].ratio) := by
  intro getYq rows rowPx noteHPx k hk hfirst
  have hne : rows.isEmpty = false := by
    cases rows with
    | nil => simp at hk
    | cons a as => rfl
  have hkys : k < (rows.map (fun t => getYq t.ratio * rowPx)).length := by
    rw [List.length_map]
    exact hk
  have hysk : (rows.map (fun t => getYq t.ratio * rowPx))[k] =
      getYq (rows[k].ratio) * rowPx := by
    simp
  have htake : ∀ y ∈ (rows.map (fun t => getYq t.ratio * rowPx)).take k,
      0 < |y - getYq (rows[k].ratio) * rowPx| := by
    intro y hmem
    rw [List.mem_take_iff_getElem] at hmem
    obtain ⟨j, hj, hjy⟩ := hmem
    have hjk : j < k := lt_of_lt_of_le hj (min_le_left _ _)
    have hjlen : j < rows.length := lt_trans hjk hk
    have hjys : j < (rows.map (fun t => getYq t.ratio * rowPx)).length := by
      rw [List.length_map]
      exact hjlen
    have hysj : (rows.map (fun t => getYq t.ratio * rowPx))[j] =
        getYq (rows[j].ratio) * rowPx := by
      simp
    rw [← hjy, hysj]
    exact abs_pos.mpr (sub_ne_zero.mpr (hfirst j hjlen hjk))
  have hscan : scanRows (getYq (rows[k].ratio) * rowPx)
      (rows.map (fun t => getYq t.ratio * rowPx)) 0 (0, none) = (k, some 0) := by
    conv_lhs =>
      rw [show rows.map (fun t => getYq t.ratio * rowPx) =
        (rows.map (fun t => getYq t.ratio * rowPx)).take k ++
          (rows.map (fun t => getYq t.ratio * rowPx))[k] ::
          (rows.map (fun t => getYq t.ratio * rowPx)).drop (k + 1) by
        conv_lhs => rw [← List.take_append_drop k
          (rows.map (fun t => getYq t.ratio * rowPx))]
        rw [List.drop_eq_getElem_cons hkys]]
    rw [scanRows_first_zero _ _ _ _ htake (by rw [hysk, sub_self, abs_zero])]
    congr 1
    rw [List.length_take]
    omega
  simp only [findNearestRowByYPx, hne, Bool.false_eq_true, if_false, hscan]
  rw [List.getElem?_eq_getElem hkys, List.getElem?_eq_getElem hk]
  simp [hysk]

/-- C8 amended witness: two rows at distinct pixel positions; the lookup
at row 1's exact position returns row 1 with its own snapped y. -/
theorem nearest_row_exact_first_witness :
    findNearestRowByYPx (fun r => (r.num : ℚ)) [⟨none, ⟨1, 1⟩⟩, ⟨none, ⟨3, 2⟩⟩]
      1 10 3 = (3, ⟨3, 2⟩) := by
  have h := nearest_row_exact_first (fun r => (r.num : ℚ))
    [⟨none, ⟨1, 1⟩⟩, ⟨none, ⟨3, 2⟩⟩] 1 10 1 (by norm_num)
    (by
      intro j hj hjk
      interval_cases j
      simp only [List.getElem_cons_zero]
      norm_num)
  simp only [List.getElem_cons_succ, List.getElem_cons_zero] at h
  rw [show ((3 : ℚ)) = (fun r : Ratio => (r.num : ℚ)) ⟨3, 2⟩ * 1 by norm_num]
  exact h

/-- C8 counterexample: with root 3000 Hz both tuning rows 1/1 and 2/1 are
clamped to pixel position 0 by `getY` (frequencies 3000 and 6000 are at or
above `MAX_FREQ_HZ`), so the lookup applied to the exact pixel position of
row 1 returns row 0 — the first row at the tied minimal distance — whose
ratio 1/1 differs from row 1's ratio 2/1.  The claim that the lookup
"returns row k" at row k's exact pixel position is therefore false when
an earlier row shares that position. -/
theorem nearest_row_duplicate_counterexample :
    getYreal 3000 2 ⟨1, 1⟩ = 0 ∧
    getYreal 3000 2 ⟨2, 1⟩ = 0 ∧
    findNearestRowByYPx (fun _ => 0) [⟨none, ⟨1, 1⟩⟩, ⟨none, ⟨2, 1⟩⟩] 32 10
      ((0 : ℚ) * 32) = (0, ⟨1, 1⟩) ∧
    (⟨1, 1⟩ : Ratio) ≠ (⟨2, 1⟩ : Ratio) := by
  refine ⟨?_, ?_, ?_, by decide⟩
  · apply getYreal_clamp_top
    rw [show (3000 : ℝ) * (((1 : Nat) : ℝ) / ((1 : Nat) : ℝ)) = 3000 by norm_num,
      maxLog]
  · apply getYreal_clamp_top
    rw [show (3000 : ℝ) * (((2 : Nat) : ℝ) / ((1 : Nat) : ℝ)) = 6000 by norm_num,
      maxLog]
    exact Real.log_le_log (by norm_num) (by norm_num)
  · norm_num [findNearestRowByYPx, scanRows, List.getElem?_cons_zero]

theorem underIdx_lt (notes : List NoteJS) (beat : ℚ) (i : Nat)
    (h : underIdx notes beat i = true) : i < notes.length := by
  unfold underIdx at h
  cases hn : notes[i]? with
  | none => rw [hn] at h; exact absurd h (by simp)
  | some n =>
    have h2 := hn
    rw [List.getElem?_eq_some] at h2
    exact h2.1

/-- The key list rebuilt by the gating phase, written out. -/
theorem gate_active_eq (rootHz : ℚ) (notes : List NoteJS) (beat : ℚ)
    (active : List Nat) :
    (gateNotes rootHz notes beat active).1 =
      (active ++ (List.range notes.length).filter
          (fun i => underIdx notes beat i && !(decide (i ∈ active)))).filter
        (fun i => underIdx notes beat i) := rfl

/-- The action trace emitted by the gating phase, written out. -/
theorem gate_acts_eq (rootHz : ℚ) (notes : List NoteJS) (beat : ℚ)
    (active : List Nat) :
    (gateNotes rootHz notes beat active).2 =
      ((List.range notes.length).filter
          (fun i => underIdx notes beat i && !(decide (i ∈ active)))).map
        (fun i => Action.startTone i rootHz
          (((notes[i]?).map NoteJS.ratio).getD ⟨1, 1⟩)
          (clamp01 (((notes[i]?).map NoteJS.velocity).getD 0))) ++
      ((active ++ (List.range notes.length).filter
          (fun i => underIdx notes beat i && !(decide (i ∈ active)))).filter
          (fun i => !(underIdx notes beat i))).map Action.stopTone := rfl

theorem mem_gate_started (notes : List NoteJS) (beat : ℚ) (active : List Nat)
    (i : Nat) :
    i ∈ (List.range notes.length).filter
        (fun i => underIdx notes beat i && !(decide (i ∈ active))) ↔
      underIdx notes beat i = true ∧ i ∉ active := by
  simp only [List.mem_filter, List.mem_range, Bool.and_eq_true,
    Bool.not_eq_true', decide_eq_false_iff_not]
  constructor
  · rintro ⟨_, hu, hm⟩
    exact ⟨hu, hm⟩
  · rintro ⟨hu, hm⟩
    exact ⟨underIdx_lt _ _ _ hu, hu, hm⟩

/-- After one gating pass the voice map holds exactly the notes under the
playhead. -/
theorem mem_gate_active (rootHz : ℚ) (notes : List NoteJS) (beat : ℚ)
    (active : List Nat) (i : Nat) :
    i ∈ (gateNotes rootHz notes beat active).1 ↔
      underIdx notes beat i = true := by
  rw [gate_active_eq]
  simp only [List.mem_filter, List.mem_append]
  constructor
  · rintro ⟨_, hu⟩
    exact hu
  · intro hu
    refine ⟨?_, hu⟩
    by_cases hm : i ∈ active
    · exact Or.inl hm
    · exact Or.inr ⟨List.mem_range.mpr (underIdx_lt _ _ _ hu), by simp [hu, hm]⟩

theorem gate_started_nodup (notes : List NoteJS) (beat : ℚ)
    (active : List Nat) :
    ((List.range notes.length).filter
      (fun i => underIdx notes beat i && !(decide (i ∈ active)))).Nodup :=
  List.Nodup.filter _ (List.nodup_range _)

theorem gate_active1_nodup (notes : List NoteJS) (beat : ℚ)
    (active : List Nat) (h : active.Nodup) :
    (active ++ (List.range notes.length).filter
      (fun i => underIdx notes beat i && !(decide (i ∈ active)))).Nodup := by
  refine List.Nodup.append h (gate_started_nodup notes beat active) ?_
  intro a ha hS
  exact ((mem_gate_started notes beat active a).mp hS).2 ha

/-- Count of `startTone` actions for note `i` in one gating pass: exactly
one when `i` is newly under the playhead, zero otherwise. -/
theorem gate_countP_start (rootHz : ℚ) (notes : List NoteJS) (beat : ℚ)
    (active : List Nat) (i : Nat) :
    (gateNotes rootHz notes beat active).2.countP (isStartOf i) =
      (if underIdx notes beat i = true ∧ i ∉ active then 1 else 0) := by
  rw [gate_acts_eq, List.countP_append]
  have hstop : (((active ++ (List.range notes.length).filter
      (fun i => underIdx notes beat i && !(decide (i ∈ active)))).filter
      (fun i => !(underIdx notes beat i))).map Action.stopTone).countP
        (isStartOf i) = 0 := by
    apply List.countP_eq_zero.mpr
    intro a ha
    obtain ⟨j, _, hj⟩ := List.mem_map.mp ha
    rw [← hj]
    simp [isStartOf]
  rw [hstop, Nat.add_zero, List.countP_map]
  have hpred : ((fun a => isStartOf i a) ∘ (fun j => Action.startTone j rootHz
      (((notes[j]?).map NoteJS.ratio).getD ⟨1, 1⟩)
      (clamp01 (((notes[j]?).map NoteJS.velocity).getD 0)))) =
      (fun j => j == i) := by
    funext j
    rfl
  rw [hpred]
  show ((List.range notes.length).filter
      (fun i => underIdx notes beat i && !(decide (i ∈ active)))).count i = _
  by_cases hc : underIdx notes beat i = true ∧ i ∉ active
  · rw [if_pos hc]
    exact List.count_eq_one_of_mem (gate_started_nodup notes beat active)
      ((mem_gate_started notes beat active i).mpr hc)
  · rw [if_neg hc]
    apply List.count_eq_zero_of_not_mem
    intro hmem
    exact hc ((mem_gate_started notes beat active i).mp hmem)

/-- Count of `stopTone` actions for note `i` in one gating pass: exactly
one when `i` had a voice and is no longer under the playhead, zero
otherwise (sounding voices are never stopped, missing ones never touched). -/
theorem gate_countP_stop (rootHz : ℚ) (notes : List NoteJS) (beat : ℚ)
    (active : List Nat) (hnd : active.Nodup) (i : Nat) :
    (gateNotes rootHz notes beat active).2.countP (isStopOf i) =
      (if i ∈ active ∧ underIdx notes beat i = false then 1 else 0) := by
  rw [gate_acts_eq, List.countP_append]
  have hstart : (((List.range notes.length).filter
      (fun i => underIdx notes beat i && !(decide (i ∈ active)))).map
        (fun i => Action.startTone i rootHz
          (((notes[i]?).map NoteJS.ratio).getD ⟨1, 1⟩)
          (clamp01 (((notes[i]?).map NoteJS.velocity).getD 0)))).countP
        (isStopOf i) = 0 := by
    apply List.countP_eq_zero.mpr
    intro a ha
    obtain ⟨j, _, hj⟩ := List.mem_map.mp ha
    rw [← hj]
    simp [isStopOf]
  rw [hstart, Nat.zero_add, List.countP_map]
  have hpred : ((fun a => isStopOf i a) ∘ Action.stopTone) = (fun j => j == i) := by
    funext j
    rfl
  rw [hpred]
  show ((active ++ (List.range notes.length).filter
      (fun i => underIdx notes beat i && !(decide (i ∈ active)))).filter
      (fun i => !(underIdx notes beat i))).count i = _
  by_cases hc : i ∈ active ∧ underIdx notes beat i = false
  · rw [if_pos hc]
    apply List.count_eq_one_of_mem
      (List.Nodup.filter _ (gate_active1_nodup notes beat active hnd))
    rw [List.mem_filter]
    exact ⟨List.mem_append_left _ hc.1, by rw [hc.2]; rfl⟩
  · rw [if_neg hc]
    apply List.count_eq_zero_of_not_mem
    intro hmem
    rw [List.mem_filter, Bool.not_eq_true', List.mem_append] at hmem
    obtain ⟨hm, hu⟩ := hmem
    rcases hm with hm | hm
    · exact hc ⟨hm, hu⟩
    · rw [((mem_gate_started notes beat active i).mp hm).1] at hu
      simp at hu

/-- A second gating pass at the same beat is a no-op: it emits no audio
actions and leaves the voice map unchanged. -/
theorem gate_idempotent (rootHz : ℚ) (notes : List NoteJS) (beat : ℚ)
    (active : List Nat) :
    gateNotes rootHz notes beat ((gateNotes rootHz notes beat active).1) =
      ((gateNotes rootHz notes beat active).1, []) := by
  have hmem : ∀ i, i ∈ (gateNotes rootHz notes beat active).1 ↔
      underIdx notes beat i = true := mem_gate_active rootHz notes beat active
  have hS : (List.range notes.length).filter
      (fun i => underIdx notes beat i &&
        !(decide (i ∈ (gateNotes rootHz notes beat active).1))) = [] := by
    apply List.filter_eq_nil_iff.mpr
    intro i _
    by_cases hu : underIdx notes beat i = true
    · simp [hu, (hmem i).mpr hu]
    · have hu' : underIdx notes beat i = false := by simpa using hu
      simp [hu']
  have h2 : ((gateNotes rootHz notes beat active).1).filter
      (fun i => underIdx notes beat i) = (gateNotes rootHz notes beat active).1 :=
    List.filter_eq_self.mpr fun i hi => (hmem i).mp hi
  have h3 : ((gateNotes rootHz notes beat active).1).filter
      (fun i => !(underIdx notes beat i)) = [] :=
    List.filter_eq_nil_iff.mpr fun i hi => by simp [(hmem i).mp hi]
  refine Prod.ext ?_ ?_
  · rw [gate_active_eq, hS, List.append_nil, h2]
  · rw [gate_acts_eq, hS, List.append_nil, h3]
    simp

theorem note_end_le_fold (notes : List NoteJS) (n : NoteJS) (h : n ∈ notes) :
    n.start + n.duration ≤
      notes.foldr (fun m acc => max (m.start + m.duration) acc) 0 := by
  induction notes with
  | nil => cases h
  | cons m rest ih =>
    rcases List.mem_cons.mp h with he | hm
    · subst he
      exact le_max_left _ _
    · exact le_trans (ih hm) (le_max_right _ _)

/-- No note is under the playhead once it is clamped to `totalBeats`. -/
theorem under_totalBeats_false (notes : List NoteJS) (i : Nat) :
    underIdx notes (totalBeats notes) i = false := by
  unfold underIdx
  cases hn : notes[i]? with
  | none => rfl
  | some n =>
    have hmem : n ∈ notes := by
      have h2 := hn
      rw [List.getElem?_eq_some] at h2
      obtain ⟨hlt, he⟩ := h2
      exact he ▸ List.getElem_mem hlt
    simp only [decide_eq_false_iff_not, not_and, not_lt]
    intro _
    have h1 := note_end_le_fold notes n hmem
    have h2 : notes.foldr (fun m acc => max (m.start + m.duration) acc) 0 ≤
        ((⌈notes.foldr (fun m acc => max (m.start + m.duration) acc) 0⌉ : ℤ) : ℚ) :=
      Int.le_ceil _
    have h3 : ((⌈notes.foldr (fun m acc => max (m.start + m.duration) acc) 0⌉ :
        ℤ) : ℚ) ≤ totalBeats notes := le_max_right _ _
    linarith

theorem wrappedBeat_eq (tempo : ℚ) (s : TransportState) (now a b : ℚ) :
    wrappedBeat tempo s now a b =
      computedBeat tempo s now -
        ((⌊(computedBeat tempo s now - a) / (b - a)⌋ : ℤ) : ℚ) * (b - a) := by
  unfold wrappedBeat computedBeat
  ring

/-- The transport-halt branch of `tick` (no valid loop region, beat at or
past the end of the project). -/
theorem tick_none_eq (tempo rootHz : ℚ) (notes : List NoteJS) (now : ℚ)
    (s : TransportState) :
    tick tempo rootHz notes none now s =
      (if computedBeat tempo s now ≥ totalBeats notes then
        ({ s with isPlaying := false, playhead := totalBeats notes, active := [] },
          [Action.stopAll])
      else
        ({ s with
            active := (gateNotes rootHz notes (computedBeat tempo s now) s.active).1,
            playhead := computedBeat tempo s now },
          (gateNotes rootHz notes (computedBeat tempo s now) s.active).2)) := rfl

/-- A `timeSelection` with `end ≤ start` does not activate the loop branch. -/
theorem tick_loop_invalid_eq (tempo rootHz : ℚ) (notes : List NoteJS)
    (a b now : ℚ) (s : TransportState) (hba : ¬ b > a) :
    tick tempo rootHz notes (some (a, b)) now s =
      tick tempo rootHz notes none now s := by
  simp only [tick, if_neg hba]

/-- The loop-wrap branch of `tick`. -/
theorem tick_wrap_eq (tempo rootHz : ℚ) (notes : List NoteJS) (a b now : ℚ)
    (s : TransportState) (hba : b > a) (hw : computedBeat tempo s now ≥ b) :
    tick tempo rootHz notes (some (a, b)) now s =
      ({ s with
          startBeat := s.startBeat -
            ((⌊(computedBeat tempo s now - a) / (b - a)⌋ : ℤ) : ℚ) * (b - a),
          active := (gateNotes rootHz notes (wrappedBeat tempo s now a b) []).1,
          playhead := wrappedBeat tempo s now a b },
        Action.stopAll :: (gateNotes rootHz notes (wrappedBeat tempo s now a b) []).2) := by
  simp only [tick, if_pos hba, if_pos hw]
  rfl

/-- The in-loop, no-wrap branch of `tick`. -/
theorem tick_loop_nowrap_eq (tempo rootHz : ℚ) (notes : List NoteJS)
    (a b now : ℚ) (s : TransportState) (hba : b > a)
    (hw : ¬ computedBeat tempo s now ≥ b) :
    tick tempo rootHz notes (some (a, b)) now s =
      ({ s with
          active := (gateNotes rootHz notes (computedBeat tempo s now) s.active).1,
          playhead := computedBeat tempo s now },
        (gateNotes rootHz notes (computedBeat tempo s now) s.active).2) := by
  simp only [tick, if_pos hba, if_neg hw]

/-- After every tick, in every branch, the live voice map holds exactly
the notes under the post-tick playhead. -/
theorem tick_active_under (tempo rootHz : ℚ) (notes : List NoteJS)
    (timeSel : Option (ℚ × ℚ)) (now : ℚ) (s : TransportState) (i : Nat) :
    i ∈ (tick tempo rootHz notes timeSel now s).1.active ↔
      underIdx notes ((tick tempo rootHz notes timeSel now s).1.playhead) i =
        true := by
  have hnone : ∀ s' : TransportState,
      i ∈ (tick tempo rootHz notes none now s').1.active ↔
        underIdx notes ((tick tempo rootHz notes none now s').1.playhead) i =
          true := by
    intro s'
    rw [tick_none_eq]
    by_cases hb : computedBeat tempo s' now ≥ totalBeats notes
    · rw [if_pos hb]
      simp [under_totalBeats_false notes i]
    · rw [if_neg hb]
      exact mem_gate_active rootHz notes (computedBeat tempo s' now) s'.active i
  match timeSel with
  | none => exact hnone s
  | some (a, b) =>
    by_cases hba : b > a
    · by_cases hw : computedBeat tempo s now ≥ b
      · rw [tick_wrap_eq tempo rootHz notes a b now s hba hw]
        exact mem_gate_active rootHz notes (wrappedBeat tempo s now a b) [] i
      · rw [tick_loop_nowrap_eq tempo rootHz notes a b now s hba hw]
        exact mem_gate_active rootHz notes (computedBeat tempo s now) s.active i
    · rw [tick_loop_invalid_eq tempo rootHz notes a b now s hba]
      exact hnone s

/-- C5: after a voice-gating pass (run by the transport tick and by the
playhead-scrub `updateForBeat`) the map of active preview voices contains
exactly the indices of notes with `beat ∈ [start, start + duration)`; a
note newly under the playhead gets exactly one new voice started, a note
no longer under the playhead gets its voice stopped and removed, an
already-sounding voice is neither restarted nor stopped, and the update
is idempotent — a second pass at the same beat changes nothing and emits
no audio actions.  The final conjunct states the voice-map exactness
after every branch of the transport tick. -/
theorem gate_exactness_idempotent :
    ∀ (rootHz : ℚ) (notes : List NoteJS) (beat : ℚ) (active : List Nat),
      (∀ i, i ∈ (gateNotes rootHz notes beat active).1 ↔
        underIdx notes beat i = true) ∧
      (∀ i, (gateNotes rootHz notes beat active).2.countP (isStartOf i) =
        (if underIdx notes beat i = true ∧ i ∉ active then 1 else 0)) ∧
      (active.Nodup → ∀ i,
        (gateNotes rootHz notes beat active).2.countP (isStopOf i) =
          (if i ∈ active ∧ underIdx notes beat i = false then 1 else 0)) ∧
      (∀ i, i ∈ active → underIdx notes beat i = false →
        Action.stopTone i ∈ (gateNotes rootHz notes beat active).2 ∧
        i ∉ (gateNotes rootHz notes beat active).1) ∧
      gateNotes rootHz notes beat ((gateNotes rootHz notes beat active).1) =
        ((gateNotes rootHz notes beat active).1, []) ∧
      updateForBeat rootHz notes beat active =
        (beat, gateNotes rootHz notes beat active) ∧
      (∀ (tempo now : ℚ) (timeSel : Option (ℚ × ℚ)) (s : TransportState)
        (i : Nat),
        i ∈ (tick tempo rootHz notes timeSel now s).1.active ↔
          underIdx notes ((tick tempo rootHz notes timeSel now s).1.playhead) i =
            true) := by
  intro rootHz notes beat active
  refine ⟨mem_gate_active rootHz notes beat active,
    gate_countP_start rootHz notes beat active,
    fun h i => gate_countP_stop rootHz notes beat active h i, ?_,
    gate_idempotent rootHz notes beat active, rfl,
    fun tempo now timeSel s i =>
      tick_active_under tempo rootHz notes timeSel now s i⟩
  intro i hi hu
  constructor
  · rw [gate_acts_eq]
    apply List.mem_append_right
    apply List.mem_map_of_mem
    rw [List.mem_filter]
    exact ⟨List.mem_append_left _ hi, by rw [hu]; rfl⟩
  · intro hmem
    rw [mem_gate_active rootHz notes beat active i, hu] at hmem
    exact Bool.false_ne_true hmem

/-- C5 witness: the gating facts applied at a concrete one-note channel
with the playhead at beat 1 (inside the note) and no prior voices. -/
theorem gate_exactness_idempotent_witness :
    ([] : List Nat).Nodup ∧
    (0 ∈ (gateNotes 440 [⟨0, 2, ⟨1, 1⟩, 1⟩] 1 []).1 ↔
      underIdx [⟨0, 2, ⟨1, 1⟩, 1⟩] 1 0 = true) ∧
    (gateNotes 440 [⟨0, 2, ⟨1, 1⟩, 1⟩] 1 []).2.countP (isStopOf 0) =
      (if 0 ∈ ([] : List Nat) ∧ underIdx [⟨0, 2, ⟨1, 1⟩, 1⟩] 1 0 = false
        then 1 else 0) :=
  ⟨List.nodup_nil,
    (gate_exactness_idempotent 440 [⟨0, 2, ⟨1, 1⟩, 1⟩] 1 []).1 0,
    (gate_exactness_idempotent 440 [⟨0, 2, ⟨1, 1⟩, 1⟩] 1 []).2.2.1
      List.nodup_nil 0⟩

/-- C4: with an active loop region `[a, b)` (`b > a`), whenever the tick
computes a beat at or past `b` it wraps by subtracting whole loop lengths,
landing the playhead in `[a, b)` — the playhead becomes
`beat − ⌊(beat − a)/(b − a)⌋·(b − a)` — and the emitted audio trace starts
with the force-stop of all playback voices, before any `startTone` of the
gating pass at the wrapped position. -/
theorem loop_wrap_into_range :
    ∀ (tempo rootHz : ℚ) (notes : List NoteJS) (a b now : ℚ)
      (s : TransportState),
      a < b → b ≤ computedBeat tempo s now →
      (a ≤ (tick tempo rootHz notes (some (a, b)) now s).1.playhead ∧
        (tick tempo rootHz notes (some (a, b)) now s).1.playhead < b) ∧
      (tick tempo rootHz notes (some (a, b)) now s).1.playhead =
        computedBeat tempo s now -
          ((⌊(computedBeat tempo s now - a) / (b - a)⌋ : ℤ) : ℚ) * (b - a) ∧
      (tick tempo rootHz notes (some (a, b)) now s).2 =
        Action.stopAll ::
          (gateNotes rootHz notes
            ((tick tempo rootHz notes (some (a, b)) now s).1.playhead) []).2 := by
  intro tempo rootHz notes a b now s hab hw
  have hba : b > a := hab
  have hge : computedBeat tempo s now ≥ b := hw
  rw [tick_wrap_eq tempo rootHz notes a b now s hba hge]
  refine ⟨?_, wrappedBeat_eq tempo s now a b, rfl⟩
  rw [wrappedBeat_eq tempo s now a b]
  have hlen : (0 : ℚ) < b - a := by linarith
  have hfr : computedBeat tempo s now - a -
      ((⌊(computedBeat tempo s now - a) / (b - a)⌋ : ℤ) : ℚ) * (b - a) =
      (b - a) * Int.fract ((computedBeat tempo s now - a) / (b - a)) := by
    rw [Int.fract]
    field_simp
    ring
  have h0 : (0 : ℚ) ≤
      (b - a) * Int.fract ((computedBeat tempo s now - a) / (b - a)) :=
    mul_nonneg hlen.le (Int.fract_nonneg _)
  have h1 : (b - a) * Int.fract ((computedBeat tempo s now - a) / (b - a)) <
      b - a := by
    have := mul_lt_mul_of_pos_left
      (Int.fract_lt_one ((computedBeat tempo s now - a) / (b - a))) hlen
    simpa using this
  constructor
  · linarith
  · linarith

/-- C4 witness: loop region `[2, 6)`, transport anchored so the computed
beat is exactly 6 — the tick wraps the playhead to beat 2 (not 0), and the
trace begins with the force-stop of all playback voices. -/
theorem loop_wrap_into_range_witness :
    (2 : ℚ) < 6 ∧
    (6 : ℚ) ≤ computedBeat 120 ⟨6, 0, [], 0, true⟩ 0 ∧
    (tick 120 1 [] (some (2, 6)) 0 ⟨6, 0, [], 0, true⟩).1.playhead = 2 := by
  have h1 : (2 : ℚ) < 6 := by norm_num
  have h2 : (6 : ℚ) ≤ computedBeat 120 ⟨6, 0, [], 0, true⟩ 0 := by
    norm_num [computedBeat]
  refine ⟨h1, h2, ?_⟩
  have h3 := (loop_wrap_into_range 120 1 [] 2 6 0 ⟨6, 0, [], 0, true⟩ h1 h2).2.1
  rw [h3]
  norm_num [computedBeat]

theorem clamp01_nonneg (v : ℚ) : 0 ≤ clamp01 v := le_max_left _ _

theorem clamp01_le_one (v : ℚ) : clamp01 v ≤ 1 :=
  max_le (by norm_num) (min_le_left _ _)

/-- Every `startTone` emitted by a gating pass carries the clamped
velocity of its note. -/
theorem gate_start_velocity (rootHz : ℚ) (notes : List NoteJS) (beat : ℚ)
    (active : List Nat) :
    ∀ a ∈ (gateNotes rootHz notes beat active).2, ∀ j rh r v,
      a = Action.startTone j rh r v →
        v = clamp01 (((notes[j]?).map NoteJS.velocity).getD 0) ∧
        0 ≤ v ∧ v ≤ 1 := by
  intro a ha j rh r v hav
  subst hav
  rw [gate_acts_eq] at ha
  rcases List.mem_append.mp ha with h | h
  · obtain ⟨i0, _, heq⟩ := List.mem_map.mp h
    injection heq with e1 e2 e3 e4
    subst e1
    subst e4
    exact ⟨rfl, clamp01_nonneg _, clamp01_le_one _⟩
  · obtain ⟨i0, _, heq⟩ := List.mem_map.mp h
    exact absurd heq (by simp)

/-- C10: every call site that starts a preview voice for a note — the
transport tick, the playhead scrub, the note mouse-down press and the
note drag start — passes the note's velocity through the clamp
`Math.max(0, Math.min(1, v))`, so the velocity reaching `startTone` always
lies in `[0, 1]`. -/
theorem startTone_velocity_clamped :
    ∀ (tempo rootHz beat now : ℚ) (notes : List NoteJS)
      (timeSel : Option (ℚ × ℚ)) (s : TransportState) (active handles : List Nat)
      (i : Nat) (note : NoteJS) (isSel shiftKey : Bool) (selected : Finset Nat),
      (∀ a ∈ (tick tempo rootHz notes timeSel now s).2, ∀ j rh r v,
        a = Action.startTone j rh r v →
          v = clamp01 (((notes[j]?).map NoteJS.velocity).getD 0) ∧
          0 ≤ v ∧ v ≤ 1) ∧
      (∀ a ∈ (updateForBeat rootHz notes beat active).2.2, ∀ j rh r v,
        a = Action.startTone j rh r v →
          v = clamp01 (((notes[j]?).map NoteJS.velocity).getD 0) ∧
          0 ≤ v ∧ v ≤ 1) ∧
      (∀ a ∈ (noteMouseDownLeft rootHz i note handles).2, ∀ j rh r v,
        a = Action.startTone j rh r v →
          v = clamp01 note.velocity ∧ 0 ≤ v ∧ v ≤ 1) ∧
      (∀ a ∈ (noteDragStart rootHz i note isSel shiftKey selected handles).2.2,
        ∀ j rh r v, a = Action.startTone j rh r v →
          v = clamp01 note.velocity ∧ 0 ≤ v ∧ v ≤ 1) := by
  intro tempo rootHz beat now notes timeSel s active handles i note isSel
    shiftKey selected
  have hsingle : ∀ (tr : List Action),
      tr = [Action.startTone i rootHz note.ratio (clamp01 note.velocity)] →
      ∀ a ∈ tr, ∀ j rh r v, a = Action.startTone j rh r v →
        v = clamp01 note.velocity ∧ 0 ≤ v ∧ v ≤ 1 := by
    intro tr htr a ha j rh r v hav
    subst htr
    rcases List.mem_singleton.mp ha with rfl
    injection hav with e1 e2 e3 e4
    subst e4
    exact ⟨rfl, clamp01_nonneg _, clamp01_le_one _⟩
  refine ⟨?_, ?_, ?_, ?_⟩
  · intro a ha j rh r v hav
    have hnone : ∀ s' : TransportState,
        a ∈ (tick tempo rootHz notes none now s').2 →
        v = clamp01 (((notes[j]?).map NoteJS.velocity).getD 0) ∧
          0 ≤ v ∧ v ≤ 1 := by
      intro s' ha'
      rw [tick_none_eq] at ha'
      by_cases hb : computedBeat tempo s' now ≥ totalBeats notes
      · rw [if_pos hb] at ha'
        rcases List.mem_singleton.mp ha' with rfl
        exact absurd hav (by simp)
      · rw [if_neg hb] at ha'
        exact gate_start_velocity rootHz notes (computedBeat tempo s' now)
          s'.active a ha' j rh r v hav
    match timeSel, ha with
    | none, ha => exact hnone s ha
    | some (c, d), ha =>
      by_cases hba : d > c
      · by_cases hw : computedBeat tempo s now ≥ d
        · rw [tick_wrap_eq tempo rootHz notes c d now s hba hw] at ha
          rcases List.mem_cons.mp ha with rfl | ha2
          · exact absurd hav (by simp)
          · exact gate_start_velocity rootHz notes
              (wrappedBeat tempo s now c d) [] a ha2 j rh r v hav
        · rw [tick_loop_nowrap_eq tempo rootHz notes c d now s hba hw] at ha
          exact gate_start_velocity rootHz notes (computedBeat tempo s now)
            s.active a ha j rh r v hav
      · rw [tick_loop_invalid_eq tempo rootHz notes c d now s hba] at ha
        exact hnone s ha
  · intro a ha j rh r v hav
    exact gate_start_velocity rootHz notes beat active a ha j rh r v hav
  · intro a ha j rh r v hav
    unfold noteMouseDownLeft at ha
    by_cases hm : i ∈ handles
    · rw [if_pos hm] at ha
      cases ha
    · rw [if_neg hm] at ha
      exact hsingle _ rfl a ha j rh r v hav
  · intro a ha j rh r v hav
    unfold noteDragStart at ha
    by_cases hm : i ∈ handles
    · rw [if_pos hm] at ha
      cases ha
    · rw [if_neg hm] at ha
      exact hsingle _ rfl a ha j rh r v hav

/-- C10 witness: a note stored with out-of-range velocity 2 reaches
`startTone` with the clamped velocity `clamp01 2 = 1` on a mouse-down
press. -/
theorem startTone_velocity_clamped_witness :
    Action.startTone 0 440 ⟨3, 2⟩ (clamp01 2) ∈
      (noteMouseDownLeft 440 0 ⟨0, 1, ⟨3, 2⟩, 2⟩ []).2 ∧
    clamp01 (2 : ℚ) = 1 ∧ 0 ≤ clamp01 (2 : ℚ) ∧ clamp01 (2 : ℚ) ≤ 1 := by
  have hmem : Action.startTone 0 440 ⟨3, 2⟩ (clamp01 2) ∈
      (noteMouseDownLeft 440 0 ⟨0, 1, ⟨3, 2⟩, 2⟩ []).2 := by
    simp [noteMouseDownLeft]
  have hval : clamp01 (2 : ℚ) = 1 := by
    rw [clamp01]
    norm_num
  exact ⟨hmem, hval,
    ((startTone_velocity_clamped 0 440 0 0 [] none ⟨0, 0, [], 0, false⟩ [] []
      0 ⟨0, 1, ⟨3, 2⟩, 2⟩ false false ∅).2.2.1 _ hmem 0 440 ⟨3, 2⟩
      (clamp01 2) rfl).2⟩

theorem jsMapIdx_length (f : Nat → α → β) (k : Nat) (l : List α) :
    (jsMapIdx f k l).length = l.length := by
  induction l generalizing k with
  | nil => rfl
  | cons a as ih => simp [jsMapIdx, ih]

theorem jsMapIdx_getElem? (f : Nat → α → β) (k j : Nat) (l : List α) :
    (jsMapIdx f k l)[j]? = (l[j]?).map (f (k + j)) := by
  induction l generalizing k j with
  | nil => simp [jsMapIdx]
  | cons a as ih =>
    cases j with
    | zero => simp [jsMapIdx]
    | succ j =>
      simp only [jsMapIdx, List.getElem?_cons_succ, ih]
      rw [show k + 1 + j = k + (j + 1) by omega]

/-- C9: `updateNote i q` rebuilds the project immutably: the top-level
fields are unchanged, channels whose id differs from the target are the
very same values, and in the target channel only the note at index `i`
differs — it becomes the object-spread `{...n, ...q}`, whose patched
fields take `q`'s values and whose unpatched fields keep `n`'s.  Being a
pure function of the input project, it cannot mutate it. -/
theorem updateNote_frame :
    ∀ (p : Project) (channelId : String) (i : Nat) (q : NotePatch),
      (updateNote p channelId i q).id = p.id ∧
      (updateNote p channelId i q).name = p.name ∧
      (updateNote p channelId i q).tempo = p.tempo ∧
      (updateNote p channelId i q).tuningRootHz = p.tuningRootHz ∧
      (updateNote p channelId i q).tuningBaseRatio = p.tuningBaseRatio ∧
      (updateNote p channelId i q).channels.length = p.channels.length ∧
      (∀ (j : Nat) (ch : Channel), p.channels[j]? = some ch →
        ch.id ≠ channelId →
        (updateNote p channelId i q).channels[j]? = some ch) ∧
      (∀ (j : Nat) (ch : Channel), p.channels[j]? = some ch →
        ch.id = channelId →
        ∃ ch' : Channel, (updateNote p channelId i q).channels[j]? = some ch' ∧
          ch'.id = ch.id ∧ ch'.tuning = ch.tuning ∧
          ch'.notes.length = ch.notes.length ∧
          (∀ (k : Nat) (n : NoteJS), k ≠ i → ch.notes[k]? = some n →
            ch'.notes[k]? = some n) ∧
          (∀ n : NoteJS, ch.notes[i]? = some n →
            ch'.notes[i]? = some (applyPatch n q))) ∧
      (∀ n : NoteJS,
        (q.start = none → (applyPatch n q).start = n.start) ∧
        (∀ v, q.start = some v → (applyPatch n q).start = v) ∧
        (q.duration = none → (applyPatch n q).duration = n.duration) ∧
        (∀ v, q.duration = some v → (applyPatch n q).duration = v) ∧
        (q.ratio = none → (applyPatch n q).ratio = n.ratio) ∧
        (∀ v, q.ratio = some v → (applyPatch n q).ratio = v) ∧
        (q.velocity = none → (applyPatch n q).velocity = n.velocity) ∧
        (∀ v, q.velocity = some v → (applyPatch n q).velocity = v)) := by
  intro p channelId i q
  refine ⟨rfl, rfl, rfl, rfl, rfl, by simp [updateNote], ?_, ?_, ?_⟩
  · intro j ch hj hne
    simp only [updateNote, List.getElem?_map, hj]
    simp [hne]
  · intro j ch hj heq
    refine ⟨⟨ch.id, jsMapIdx
        (fun k n => if k = i then applyPatch n q else n) 0 ch.notes,
        ch.tuning⟩,
      ?_, rfl, rfl, jsMapIdx_length _ _ _, ?_, ?_⟩
    · simp only [updateNote, List.getElem?_map, hj]
      simp [heq]
    · intro k n hk hn
      simp only [jsMapIdx_getElem?, Nat.zero_add, hn]
      simp [hk]
    · intro n hn
      simp only [jsMapIdx_getElem?, Nat.zero_add, hn]
      simp
  · intro n
    refine ⟨?_, ?_, ?_, ?_, ?_, ?_, ?_, ?_⟩ <;>
      first
        | (intro h; simp [applyPatch, h])
        | (intro v h; simp [applyPatch, h])

/-- C9 witness: a concrete two-channel project; patching note 0 of channel
"ch1" with a new start leaves the other channel's value untouched and
patches exactly the targeted note. -/
theorem updateNote_frame_witness :
    (updateNote
      ⟨"p", "proj", 120, 440, ⟨1, 1⟩,
        [⟨"ch1", [⟨0, 1, ⟨1, 1⟩, 1⟩], []⟩, ⟨"ch2", [⟨3, 1, ⟨5, 4⟩, 1⟩], []⟩]⟩
      "ch1" 0 { start := some 5 }).tempo = 120 ∧
    (updateNote
      ⟨"p", "proj", 120, 440, ⟨1, 1⟩,
        [⟨"ch1", [⟨0, 1, ⟨1, 1⟩, 1⟩], []⟩, ⟨"ch2", [⟨3, 1, ⟨5, 4⟩, 1⟩], []⟩]⟩
      "ch1" 0 { start := some 5 }).channels[1]? =
      some ⟨"ch2", [⟨3, 1, ⟨5, 4⟩, 1⟩], []⟩ := by
  refine ⟨(updateNote_frame
    ⟨"p", "proj", 120, 440, ⟨1, 1⟩,
      [⟨"ch1", [⟨0, 1, ⟨1, 1⟩, 1⟩], []⟩, ⟨"ch2", [⟨3, 1, ⟨5, 4⟩, 1⟩], []⟩]⟩
    "ch1" 0 { start := some 5 }).2.2.1, ?_⟩
  exact (updateNote_frame
    ⟨"p", "proj", 120, 440, ⟨1, 1⟩,
      [⟨"ch1", [⟨0, 1, ⟨1, 1⟩, 1⟩], []⟩, ⟨"ch2", [⟨3, 1, ⟨5, 4⟩, 1⟩], []⟩]⟩
    "ch1" 0 { start := some 5 }).2.2.2.2.2.2.1 1 ⟨"ch2", [⟨3, 1, ⟨5, 4⟩, 1⟩], []⟩
    (by rfl) (by decide)

end MVC
